import Mathlib

/-!
Verification development for the hydra manifest subsystem (manifest.go).

The embedding models the filesystem as an association list from path strings
to byte lists.  External collaborators that the manifest code calls but that
live outside this package's manifest source (hashing, MIME detection, archive
type detection, the module classification predicate, the module-spec parser
and the archive expander) are collected in an `Env` record of function
parameters; theorems quantify over them where they are not pinned by a claim.
-/

abbrev Bytes := List Nat

abbrev FS := List (String × Bytes)

def fsLookup (fs : FS) (p : String) : Option Bytes :=
  match fs with
  | [] => none
  | e :: rest => if e.1 = p then some e.2 else fsLookup rest p

def fsRemove (fs : FS) (p : String) : FS :=
  match fs with
  | [] => []
  | e :: rest => if e.1 = p then fsRemove rest p else e :: fsRemove rest p

def fsWrite (fs : FS) (p : String) (b : Bytes) : FS :=
  (p, b) :: fsRemove fs p

/-- Path join, modelling Go's `filepath.Join(root, name)` on the clean
relative names that the manifest uses (no `.`/`..` cleaning is needed). -/
def pjoin (root name : String) : String :=
  root ++ "/" ++ name

def takeUntilSlash : List Char → List Char
  | [] => []
  | c :: rest => if c = '/' then [] else c :: takeUntilSlash rest

def dropBaseRev : List Char → List Char
  | [] => []
  | c :: rest => if c = '/' then rest else dropBaseRev rest

/-- Go's `filepath.Base`: the last element of the path. -/
def pbase (s : String) : String :=
  String.mk ((takeUntilSlash s.toList.reverse).reverse)

/-- Go's `filepath.Dir`: everything but the last element, `.` when there is
no separator. -/
def pdir (s : String) : String :=
  match dropBaseRev s.toList.reverse with
  | [] => "."
  | rest => String.mk rest.reverse

def extRevAux (acc : List Char) : List Char → List Char
  | [] => []
  | c :: rest =>
    if c = '.' then c :: acc
    else if c = '/' then []
    else extRevAux (c :: acc) rest

/-- Go's `filepath.Ext`: the suffix beginning at the final dot in the final
element of the path; empty when there is no dot. -/
def pathExt (s : String) : String :=
  String.mk (extRevAux [] s.toList.reverse)

/-- Modelled from the spec: `fileutil.SetExt` (go-stockutil, outside src)
replaces the path's extension, so an entry named `X.qml` maps to `X.yaml`. -/
def setExt (s newExt : String) : String :=
  String.mk (s.toList.take (s.toList.length - (pathExt s).toList.length)) ++ newExt

/-- Go's `filepath.Rel(root, path)` restricted to the shapes the manifest
code produces: a path below `root` becomes relative, everything else is
returned unchanged (the source keeps the input on a `Rel` error). -/
def relPath (root p : String) : String :=
  if root = "" then p
  else if (root.toList ++ ['/']).isPrefixOf p.toList then String.mk (p.toList.drop (root.toList.length + 1))
  else p

/-- Modelled from the spec: the manifest's own filename constant (declared
outside the manifest source file). -/
def ManifestFilename : String := "manifest.yaml"

/-- Modelled from the spec: the per-directory module-spec descriptor filename
(declared outside the manifest source file). -/
def ModuleSpecFilename : String := "module.yaml"

/-- External collaborators consumed by the manifest code:
`hash` models `fileutil.ChecksumFile(path, sha256)` + hex encoding applied to
the file's bytes; `mime` models `fileutil.GetMimeType`; `archiveFile` models
`getArchiveType(path) != NoArchive`; `moduleFile` models `IsValidModuleFile`;
`moduleSpecGlobal` models `LoadModuleSpec` returning the spec's Global flag;
`unarchive` models reading an archive's contained (name, bytes) entries, used
by the spec-modelled `extract`. -/
structure Env where
  hash : Bytes → String
  mime : String → String
  archiveFile : String → Bool
  moduleFile : String → Bool
  moduleSpecGlobal : Bytes → Except String Bool
  unarchive : Bytes → Option (List (String × Bytes))

structure ManifestFile where
  Name : String
  Size : Int
  SHA256 : String
  MIME : String
  Archive : Bool
  skipValidate : Bool
  deriving DecidableEq

def errInvalidLocal : String := "invalid local file: "

def errNoSuchFile : String := "no such file"

/-- `ManifestFile.validate`: the file must exist under `root` and its bytes
must hash to the recorded SHA256.  (The source's "malformed checksum" branch
corresponds to a `ChecksumFile` I/O error, which the total `hash` model
cannot produce.) -/
def ManifestFile.validate (env : Env) (fs : FS) (root : String) (f : ManifestFile) : Except String Unit :=
  match fsLookup fs (pjoin root f.Name) with
  | some b => if env.hash b = f.SHA256 then Except.ok () else Except.error errInvalidLocal
  | none => Except.error errNoSuchFile

structure Manifest where
  Assets : List ManifestFile
  Modules : List ManifestFile
  GlobalImports : List String
  GeneratedAt : Nat
  TotalSize : Int
  FileCount : Int
  rootDir : String
  deriving DecidableEq

/-- The zero manifest bound to a root directory, as built by `CreateManifest`
(`new(Manifest)` with `rootDir` assigned). -/
def Manifest.new (root : String) : Manifest :=
  { Assets := [], Modules := [], GlobalImports := [], GeneratedAt := 0,
    TotalSize := 0, FileCount := 0, rootDir := root }

def Manifest.rel (m : Manifest) (path : String) : String :=
  relPath m.rootDir path

def Manifest.Files (m : Manifest) : List ManifestFile :=
  m.Assets ++ m.Modules

def Manifest.AddGlobalImportPath (m : Manifest) (path : String) : Manifest :=
  if m.GlobalImports.contains path then m
  else { m with GlobalImports := m.GlobalImports ++ [path] }

def Manifest.ShouldAppend (m : Manifest) (path : String) : Bool :=
  let rel := m.rel path
  let base := pbase rel
  if rel = ManifestFilename then false
  else if base = "qmldir" then false
  else if base = ModuleSpecFilename then false
  else if base = "Hydra.qml" then false
  else true

/-- The entry-construction tail of `Manifest.Append`: build the entry from
the checksum and stat size, append it to Modules or Assets according to the
classification predicate, and bump the running aggregates. -/
def Manifest.appendEntry (env : Env) (m : Manifest) (path relP : String) (b : Bytes) : Manifest :=
  let entry : ManifestFile :=
    { Name := relP, Size := Int.ofNat b.length, SHA256 := env.hash b,
      MIME := env.mime path, Archive := env.archiveFile path, skipValidate := false }
  let m2 :=
    if env.moduleFile path then { m with Modules := m.Modules ++ [entry] }
    else { m with Assets := m.Assets ++ [entry] }
  { m2 with FileCount := m2.FileCount + 1, TotalSize := m2.TotalSize + Int.ofNat b.length }

def errChecksum (p : String) : String :=
  "create-manifest: " ++ p ++ ": checksum"

def errBadSpec (p e : String) : String :=
  "create-manifest: invalid module spec " ++ p ++ ": " ++ e

/-- `Manifest.Append` with the walker-supplied `FileInfo` (directory flag and
size): directories are skipped; the file's bytes are checksummed; a file
whose base name is the module-spec filename is parsed (parse failure aborts)
and, when global, contributes its directory to the import list, after which
control falls through to the entry construction; any other file is appended
only when `ShouldAppend` allows it. -/
def Manifest.Append (env : Env) (fs : FS) (m : Manifest) (path : String) (isDir : Bool) : Except String Manifest :=
  if isDir then Except.ok m
  else
    match fsLookup fs path with
    | none => Except.error (errChecksum path)
    | some b =>
      let relP := m.rel path
      if pbase path = ModuleSpecFilename then
        match env.moduleSpecGlobal b with
        | Except.ok g =>
          let m2 := if g then m.AddGlobalImportPath (pdir path) else m
          Except.ok (m2.appendEntry env path relP b)
        | Except.error e => Except.error (errBadSpec path e)
      else if m.ShouldAppend path then Except.ok (m.appendEntry env path relP b)
      else Except.ok m

def walkAppend (env : Env) (fs : FS) : Manifest → List (String × Bool) → Except String Manifest
  | m, [] => Except.ok m
  | m, e :: rest =>
    match Manifest.Append env fs m e.1 e.2 with
    | Except.ok m2 => walkAppend env fs m2 rest
    | Except.error err => Except.error err

def insertSorted (x : String) : List String → List String
  | [] => [x]
  | y :: rest => if x ≤ y then x :: y :: rest else y :: insertSorted x rest

def sortStrings : List String → List String
  | [] => []
  | x :: rest => insertSorted x (sortStrings rest)

/-- `CreateManifest`: walk the tree (a list of (path, isDirectory) pairs in
walk order), appending every entry; on success set the generation timestamp,
sort the global imports and rewrite each one relative to the source dir. -/
def CreateManifest (env : Env) (fs : FS) (srcdir : String) (tree : List (String × Bool)) (now : Nat) : Except String Manifest :=
  match walkAppend env fs (Manifest.new srcdir) tree with
  | Except.ok m =>
    Except.ok { m with GeneratedAt := now,
                       GlobalImports := (sortStrings m.GlobalImports).map (fun gi => relPath srcdir gi) }
  | Except.error e => Except.error e

/-- `Manifest.Clean`: remove each module entry's destination file, ignoring
removal failures, and always return success. -/
def Manifest.Clean (m : Manifest) (destdir : String) (fs : FS) : FS × Except String Unit :=
  (m.Modules.foldl (fun acc mf => fsRemove acc (pjoin destdir mf.Name)) fs, Except.ok ())

/-- State threaded through `Manifest.Fetch`: the destination filesystem, the
ordered list of retrieval-backend calls made so far (one name per call to
`file.fetch`), and the positions of entries whose `skipValidate` flag was set
by this call (positions model Go's per-entry pointer identity). -/
structure SyncState where
  fs : FS
  log : List String
  marked : List Nat
  deriving DecidableEq

def exceptOk {α β : Type} : Except α β → Bool
  | Except.ok _ => true
  | Except.error _ => false

/-- Pair each list element with its position, modelling the identity of the
`*ManifestFile` pointers shared between the fetch list and `Files()`. -/
def withIdx {α : Type} : Nat → List α → List (Nat × α)
  | _, [] => []
  | n, x :: rest => (n, x) :: withIdx (n + 1) rest

/-- The first loop of `Manifest.Fetch`: every entry of assets-then-modules
that fails local validation is queued for fetching. -/
def computeToFetch (env : Env) (fs : FS) (destdir : String) (files : List ManifestFile) : List (Nat × ManifestFile) :=
  (withIdx 0 files).filter (fun p => !(exceptOk (p.2.validate env fs destdir)))

/-- Modelled from the spec: the `extract` helper (declared outside the
manifest source file) expands the archive stored at `dest` into `destdir`,
its contained entries becoming part of the destination tree; it fails when
the file cannot be read or is not a readable archive. -/
def extract (env : Env) (fs : FS) (dest destdir : String) : Option FS :=
  match fsLookup fs dest with
  | none => none
  | some b =>
    match env.unarchive b with
    | none => none
    | some entries => some (entries.foldl (fun acc e => fsWrite acc (pjoin destdir e.1) e.2) fs)

def errRetrieve (name : String) : String :=
  name ++ ": retrieve: "

def errExtract (name : String) : String :=
  name ++ ": extract: "

/-- The fetch loop of `Manifest.Fetch`: for each queued entry, call the
retrieval backend (`file.fetch(srcroot)`, modelled as a lookup in the source
filesystem and recorded in the log), write the stream to the destination
path, and, for archive entries, immediately expand the retrieved file into
the destination and set the entry's `skipValidate` flag; retrieval, write or
extraction failure aborts with an error. -/
def fetchPhase (env : Env) (srcFS : FS) (srcroot destdir : String) : SyncState → List (Nat × ManifestFile) → Except (String × SyncState) SyncState
  | st, [] => Except.ok st
  | st, e :: rest =>
    let st1 : SyncState := { st with log := st.log ++ [e.2.Name] }
    match fsLookup srcFS (pjoin srcroot e.2.Name) with
    | none => Except.error (errRetrieve e.2.Name, st1)
    | some b =>
      let dest := pjoin destdir e.2.Name
      let fs2 := fsWrite st1.fs dest b
      if e.2.Archive then
        match extract env fs2 dest destdir with
        | some fs3 =>
          fetchPhase env srcFS srcroot destdir { fs := fs3, log := st1.log, marked := st1.marked ++ [e.1] } rest
        | none => Except.error (errExtract e.2.Name, { st1 with fs := fs2 })
      else fetchPhase env srcFS srcroot destdir { st1 with fs := fs2 } rest

def errInvalidAt (p e : String) : String :=
  p ++ ": invalid file: " ++ e

/-- The second pass of `Manifest.Fetch`: every entry whose `skipValidate`
flag is not set is validated against the destination; the first failure
removes the offending local file and aborts with an error. -/
def validatePass (env : Env) (destdir : String) : SyncState → List (Nat × ManifestFile) → Except (String × SyncState) SyncState
  | st, [] => Except.ok st
  | st, e :: rest =>
    if e.2.skipValidate || st.marked.contains e.1 then validatePass env destdir st rest
    else
      match e.2.validate env st.fs destdir with
      | Except.ok _ => validatePass env destdir st rest
      | Except.error err =>
        Except.error (errInvalidAt (pjoin destdir e.2.Name) err,
                      { st with fs := fsRemove st.fs (pjoin destdir e.2.Name) })

/-- `Manifest.Fetch`: validate every entry locally, fetch (and possibly
extract) the invalid ones, then re-validate every non-skipped entry. -/
def Manifest.Fetch (env : Env) (srcFS : FS) (m : Manifest) (srcroot destdir : String) (fs : FS) : Except (String × SyncState) SyncState :=
  match fetchPhase env srcFS srcroot destdir { fs := fs, log := [], marked := [] }
        (computeToFetch env fs destdir (m.Assets ++ m.Modules)) with
  | Except.ok st1 => validatePass env destdir st1 (withIdx 0 (m.Assets ++ m.Modules))
  | Except.error e => Except.error e

/-- The state carried by a `Fetch` outcome, whether it succeeded or failed. -/
def fetchState : Except (String × SyncState) SyncState → SyncState
  | Except.ok st => st
  | Except.error e => e.2

/-- `Manifest.isAutogenerated`: a `.qml` entry whose `.yaml` counterpart is a
tracked module entry. -/
def Manifest.isAutogenerated (m : Manifest) (f : ManifestFile) : Bool :=
  if pathExt f.Name = ".qml" then
    m.Modules.any (fun mf => mf.Name = setExt f.Name ".yaml")
  else false

def errBundleInvalid (name e : String) : String :=
  "bundle: invalid file " ++ name ++ ": " ++ e

def errBundleStat (name : String) : String :=
  "bundle: file " ++ name ++ ": "

/-- The per-entry loop of `Manifest.Bundle`: archive entries and
autogenerated entries are skipped; every other entry is re-validated against
the manifest root (failure aborts, naming the file) and then written to the
archive under its manifest-relative name with its on-disk bytes. -/
def bundleFiles (env : Env) (fs : FS) (m : Manifest) : List ManifestFile → Except String (List (String × Bytes))
  | [] => Except.ok []
  | f :: rest =>
    if f.Archive then bundleFiles env fs m rest
    else if m.isAutogenerated f then bundleFiles env fs m rest
    else
      match f.validate env fs m.rootDir with
      | Except.error e => Except.error (errBundleInvalid f.Name e)
      | Except.ok _ =>
        match fsLookup fs (pjoin m.rootDir f.Name) with
        | none => Except.error (errBundleStat f.Name)
        | some b =>
          match bundleFiles env fs m rest with
          | Except.ok out => Except.ok ((f.Name, b) :: out)
          | Except.error e => Except.error e

/-- `Manifest.Bundle`: create the output file (`createResult` models the
outcome of `os.Create(outfile)`), then write every non-excluded, re-validated
entry; the result is the ordered list of (in-archive path, bytes) entries. -/
def Manifest.Bundle (env : Env) (fs : FS) (m : Manifest) (createResult : Except String Unit) : Except String (List (String × Bytes)) :=
  match createResult with
  | Except.error e => Except.error e
  | Except.ok _ => bundleFiles env fs m m.Files

/-- Whether `Bundle` keeps an entry: not an archive and not autogenerated. -/
def bundleKeep (m : Manifest) (f : ManifestFile) : Bool :=
  !f.Archive && !(m.isAutogenerated f)

deriving instance DecidableEq for Except

/-- How a call to `Manifest.WriteFile` ends: either control returns to the
caller with a result, or the process is terminated (`log.Fatal`). -/
inductive WriteOutcome where
  | returned (r : Except String Unit)
  | exited (msg : String)
  deriving DecidableEq

/-- `Manifest.WriteFile`: an empty target defaults to the manifest filename;
the sentinel `-` writes to stdout; otherwise the output file is created
(`createResult` models `os.Create`), and on creation failure the source
calls `log.Fatal(err)`, terminating the process; the YAML encoding outcome
of the wrapped manifest (`encode`) is returned. -/
def Manifest.WriteFile (encode : Manifest → Except String Unit) (createResult : Except String Unit) (m : Manifest) (manifestFile : String) : WriteOutcome :=
  let mf := if manifestFile = "" then ManifestFilename else manifestFile
  if mf = "-" then WriteOutcome.returned (encode m)
  else
    match createResult with
    | Except.ok _ => WriteOutcome.returned (encode m)
    | Except.error e => WriteOutcome.exited e

/-! Concrete fixtures used by the scenario theorems and witnesses.  The
`Env` functions are simple executable stand-ins for the external
collaborators: the hash of a byte list is the decimal rendering of its
length, a `.yaml` extension classifies a file as a module, a `.zip`
extension marks it as an archive, the module spec `[1]` parses as global,
and the archive `[9]` expands to a single file `b.txt` with bytes `[2]`. -/

def testMime : String := "application/octet-stream"

def c4BName : String := "b.txt"

def testEnv : Env :=
  { hash := fun b => Nat.repr b.length,
    mime := fun _ => testMime,
    archiveFile := fun p => pathExt p == ".zip",
    moduleFile := fun p => pathExt p == ".yaml",
    moduleSpecGlobal := fun b => Except.ok (b == [1]),
    unarchive := fun b => if b == [9] then some [(c4BName, [2])] else none }

def c1SrcDir : String := "src"

def c1APath : String := "src/a.txt"

def c1ModsPath : String := "src/mods"

def c1SpecPath : String := "src/mods/module.yaml"

def c1ABytes : Bytes := List.replicate 11 104

def c1SpecBytes : Bytes := [1]

def c1FS : FS := [(c1APath, c1ABytes), (c1SpecPath, c1SpecBytes)]

def c1Tree : List (String × Bool) :=
  [(c1SrcDir, true), (c1APath, false), (c1ModsPath, true), (c1SpecPath, false)]

def c1AEntry : ManifestFile :=
  { Name := "a.txt", Size := 11, SHA256 := "11", MIME := testMime,
    Archive := false, skipValidate := false }

def c1SpecEntry : ManifestFile :=
  { Name := "mods/module.yaml", Size := 1, SHA256 := "1", MIME := testMime,
    Archive := false, skipValidate := false }

def c1Out : Manifest :=
  { Assets := [c1AEntry], Modules := [c1SpecEntry], GlobalImports := ["mods"],
    GeneratedAt := 0, TotalSize := 12, FileCount := 2, rootDir := c1SrcDir }

/-- Manifest after appending only `a.txt` of the C1 scenario. -/
def c2After : Manifest :=
  { Assets := [c1AEntry], Modules := [], GlobalImports := [], GeneratedAt := 0,
    TotalSize := 11, FileCount := 1, rootDir := c1SrcDir }

/-- Sum of the recorded sizes of a list of entries. -/
def sumSizes (l : List ManifestFile) : Int :=
  (l.map (fun f => f.Size)).sum

/-- The aggregate invariant of a manifest: `fileCount` counts the entries and
`totalSize` sums their sizes. -/
def manifestInv (m : Manifest) : Prop :=
  m.FileCount = ((m.Assets.length + m.Modules.length : Nat) : Int) ∧
  m.TotalSize = sumSizes m.Assets + sumSizes m.Modules

def c3DestDir : String := "d"

def c3DestFS : FS := [(pjoin c3DestDir c1AEntry.Name, c1ABytes)]

def c4ZipName : String := "pkg.zip"

def c4ZipEntry : ManifestFile :=
  { Name := c4ZipName, Size := 1, SHA256 := "1", MIME := testMime,
    Archive := true, skipValidate := false }

def c4BEntry : ManifestFile :=
  { Name := c4BName, Size := 1, SHA256 := "1", MIME := testMime,
    Archive := false, skipValidate := false }

def c4M : Manifest :=
  { Assets := [c4ZipEntry, c4BEntry], Modules := [], GlobalImports := [],
    GeneratedAt := 0, TotalSize := 2, FileCount := 2, rootDir := "r" }

def c4DestDir : String := "dd"

def c4DestFS : FS := [(pjoin c4DestDir c4BName, [1])]

def c4SrcRoot : String := "s"

def c4SrcFS : FS := [(pjoin c4SrcRoot c4ZipName, [9])]

def c4wBadName : String := "w.txt"

def c4wGoodName : String := "g.txt"

def c4wBad : ManifestFile :=
  { Name := c4wBadName, Size := 2, SHA256 := "2", MIME := testMime,
    Archive := false, skipValidate := false }

def c4wGood : ManifestFile :=
  { Name := c4wGoodName, Size := 1, SHA256 := "1", MIME := testMime,
    Archive := false, skipValidate := false }

def c4wM : Manifest :=
  { Assets := [c4wBad, c4wGood], Modules := [], GlobalImports := [],
    GeneratedAt := 0, TotalSize := 3, FileCount := 2, rootDir := "r" }

def c4wDestDir : String := "dw"

def c4wDestFS : FS := [(pjoin c4wDestDir c4wGoodName, [4])]

def c4wSrcRoot : String := "sw"

def c4wSrcFS : FS := [(pjoin c4wSrcRoot c4wBadName, [8, 8])]

def c5Name : String := "v.txt"

def c5Entry : ManifestFile :=
  { Name := c5Name, Size := 2, SHA256 := "2", MIME := testMime,
    Archive := false, skipValidate := false }

def c5M : Manifest :=
  { Assets := [c5Entry], Modules := [], GlobalImports := [],
    GeneratedAt := 0, TotalSize := 2, FileCount := 1, rootDir := "r" }

def c5DestDir : String := "dv"

def c5SrcRoot : String := "sv"

def c5SrcFS : FS := [(pjoin c5SrcRoot c5Name, [7])]

/-- The state after the fetch phase of the C5 witness scenario: the single
entry was fetched (with content that will still not validate). -/
def c5St1 : SyncState :=
  { fs := [(pjoin c5DestDir c5Name, [7])], log := [c5Name], marked := [] }

def c6SrcRoot : String := "sz"

def c6DestDir : String := "dz"

def c6SrcFS : FS := [(pjoin c6SrcRoot c4ZipName, [9])]

def c6St0 : SyncState := { fs := [], log := [], marked := [] }

def c6Fs3 : FS :=
  fsWrite (fsWrite [] (pjoin c6DestDir c4ZipName) [9]) (pjoin c6DestDir c4BName) [2]

def c7Root : String := "r7"

def c7QmlName : String := "widget.qml"

def c7YamlName : String := "widget.yaml"

def c7TxtName : String := "t.txt"

def c7ZipEntry : ManifestFile :=
  { Name := c4ZipName, Size := 1, SHA256 := "1", MIME := testMime,
    Archive := true, skipValidate := false }

def c7QmlEntry : ManifestFile :=
  { Name := c7QmlName, Size := 9, SHA256 := "9", MIME := testMime,
    Archive := false, skipValidate := false }

def c7TxtEntry : ManifestFile :=
  { Name := c7TxtName, Size := 1, SHA256 := "1", MIME := testMime,
    Archive := false, skipValidate := false }

def c7YamlEntry : ManifestFile :=
  { Name := c7YamlName, Size := 1, SHA256 := "1", MIME := testMime,
    Archive := false, skipValidate := false }

def c7M : Manifest :=
  { Assets := [c7ZipEntry, c7QmlEntry, c7TxtEntry], Modules := [c7YamlEntry],
    GlobalImports := [], GeneratedAt := 0, TotalSize := 12, FileCount := 4,
    rootDir := c7Root }

def c7FS : FS := [(pjoin c7Root c7TxtName, [3]), (pjoin c7Root c7YamlName, [5])]

def c7Out : List (String × Bytes) := [(c7TxtName, [3]), (c7YamlName, [5])]

def c8BadName : String := "bad.txt"

def c8Bad : ManifestFile :=
  { Name := c8BadName, Size := 2, SHA256 := "99", MIME := testMime,
    Archive := false, skipValidate := false }

def c8Root : String := "r8"

def c8M : Manifest :=
  { Assets := [c8Bad], Modules := [], GlobalImports := [],
    GeneratedAt := 0, TotalSize := 2, FileCount := 1, rootDir := c8Root }

def c8FS : FS := [(pjoin c8Root c8BadName, [5])]

def c9Target : String := "out.yaml"

def c9Err : String := "create failed"

def c9Encode : Manifest → Except String Unit := fun _ => Except.ok ()

/-- C1: building a manifest from the spec's scenario directory (`a.txt` of
11 bytes plus a module spec marking itself global in `mods/`) does compute
`globalImports == ["mods"]`, but the module-spec file itself falls through
`Append`'s switch and is appended as an entry: the result has
`fileCount == 2` and a non-empty modules collection, not `fileCount == 1`
with empty modules as claimed. -/
theorem c1_module_spec_appended :
    CreateManifest testEnv c1FS c1SrcDir c1Tree 0 = Except.ok c1Out ∧
    c1Out.FileCount = 2 ∧
    c1Out.Modules.map (fun f => f.Name) = ["mods/module.yaml"] ∧
    c1Out.GlobalImports = ["mods"] := by
  refine ⟨?_, rfl, rfl, rfl⟩
  rfl

/-! Helper lemmas about the filesystem model. -/

theorem fsLookup_fsRemove (fs : FS) (p q : String) :
    fsLookup (fsRemove fs p) q = if q = p then none else fsLookup fs q := by
  induction fs with
  | nil => simp [fsRemove, fsLookup]
  | cons e rest ih =>
    by_cases hep : e.1 = p
    · rw [show fsRemove (e :: rest) p = fsRemove rest p from by simp [fsRemove, hep]]
      rw [ih]
      by_cases hqp : q = p
      · simp [hqp]
      · have heq : ¬ e.1 = q := fun h2 => hqp (h2.symm.trans hep)
        simp [hqp, fsLookup, heq]
    · rw [show fsRemove (e :: rest) p = e :: fsRemove rest p from by simp [fsRemove, hep]]
      by_cases heq : e.1 = q
      · have hqp : ¬ q = p := fun h2 => hep (heq.trans h2)
        simp [fsLookup, heq, hqp]
      · simp [fsLookup, heq, ih]

theorem fsLookup_fsWrite (fs : FS) (p q : String) (b : Bytes) :
    fsLookup (fsWrite fs p b) q = if q = p then some b else fsLookup fs q := by
  by_cases hqp : q = p
  · simp [fsWrite, fsLookup, hqp]
  · have hpq : ¬ p = q := fun h2 => hqp h2.symm
    simp [fsWrite, fsLookup, hpq, hqp, fsLookup_fsRemove]

theorem fsLookup_foldl_remove (ps : List String) (fs : FS) (q : String) :
    fsLookup (ps.foldl fsRemove fs) q = if ps.contains q then none else fsLookup fs q := by
  induction ps generalizing fs with
  | nil => simp
  | cons p rest ih =>
    simp only [List.foldl_cons, List.contains_cons]
    rw [ih, fsLookup_fsRemove]
    by_cases hq : q = p
    · simp [hq]
    · have : (p == q) = false := by
        simpa [beq_iff_eq] using fun h2 => hq h2.symm
      simp [this, hq]

/-- If a file validates, its destination bytes are present. -/
theorem validate_ok_lookup (env : Env) (fs : FS) (root : String) (f : ManifestFile) (u : Unit)
    (h : f.validate env fs root = Except.ok u) :
    ∃ b, fsLookup fs (pjoin root f.Name) = some b := by
  unfold ManifestFile.validate at h
  cases hl : fsLookup fs (pjoin root f.Name) with
  | none => rw [hl] at h; cases h
  | some b => exact ⟨b, rfl⟩

/-- Validation only looks at the entry's own destination path. -/
theorem validate_congr (env : Env) (fs1 fs0 : FS) (root : String) (f : ManifestFile)
    (h : fsLookup fs1 (pjoin root f.Name) = fsLookup fs0 (pjoin root f.Name)) :
    f.validate env fs1 root = f.validate env fs0 root := by
  unfold ManifestFile.validate
  rw [h]

/-- C10: `Clean` always succeeds (removal failures are discarded) and its
effect on the destination is exactly the removal of the files named by the
module entries; every other path, including every asset entry's destination
file, is untouched, and the manifest value itself is not modified. -/
theorem c10_clean_modules_only :
    ∀ (m : Manifest) (destdir : String) (fs : FS),
    (m.Clean destdir fs).2 = Except.ok () ∧
    ∀ q : String, fsLookup (m.Clean destdir fs).1 q =
      if (m.Modules.map (fun f => pjoin destdir f.Name)).contains q then none
      else fsLookup fs q := by
  intro m destdir fs
  constructor
  · rfl
  · intro q
    have hfold : (m.Clean destdir fs).1
        = (m.Modules.map (fun f => pjoin destdir f.Name)).foldl fsRemove fs := by
      rw [Manifest.Clean, List.foldl_map]
    rw [hfold, fsLookup_foldl_remove]

/-- C9 counterexample: when creating the output file fails, `WriteFile` does
not return the error (or any result) to its caller: the call ends in process
termination (`log.Fatal`). -/
theorem c9_create_error_not_returned :
    Manifest.WriteFile c9Encode (Except.error c9Err) c1Out c9Target = WriteOutcome.exited c9Err ∧
    ∀ r : Except String Unit,
      Manifest.WriteFile c9Encode (Except.error c9Err) c1Out c9Target ≠ WriteOutcome.returned r := by
  have h1 : Manifest.WriteFile c9Encode (Except.error c9Err) c1Out c9Target
      = WriteOutcome.exited c9Err := rfl
  refine ⟨h1, ?_⟩
  intro r h
  rw [h1] at h
  exact WriteOutcome.noConfusion h

/-- C9 amended: for every target filename other than the stdout sentinel, a
file-creation failure makes `WriteFile` terminate the process via `log.Fatal`
with that error instead of returning it; only the encoding outcome (and the
stdout path) is returned to the caller. -/
theorem c9_create_error_exits :
    ∀ (encode : Manifest → Except String Unit) (m : Manifest) (target e : String),
    target ≠ "-" →
    Manifest.WriteFile encode (Except.error e) m target = WriteOutcome.exited e := by
  intro encode m target e h
  by_cases ht : target = ""
  · subst ht
    rfl
  · simp [Manifest.WriteFile, ht, h]

/-- Witness for the C9 amended theorem at a concrete target filename. -/
theorem c9_create_error_exits_witness :
    Manifest.WriteFile c9Encode (Except.error c9Err) c4M c9Target = WriteOutcome.exited c9Err :=
  c9_create_error_exits c9Encode c4M c9Target c9Err (by decide)

/-- Appending an entry preserves the aggregate invariant. -/
theorem appendEntry_inv (env : Env) (m : Manifest) (path relP : String) (b : Bytes)
    (h : manifestInv m) : manifestInv (m.appendEntry env path relP b) := by
  obtain ⟨h1, h2⟩ := h
  unfold Manifest.appendEntry
  by_cases hc : env.moduleFile path <;>
    simp only [hc, if_true, if_false, Bool.false_eq_true] <;>
      constructor <;>
        simp [manifestInv, sumSizes, List.map_append, List.sum_append, h1, h2] <;>
          ring

/-- Adding a global import path preserves the aggregate invariant. -/
theorem addGlobal_inv (m : Manifest) (p : String)
    (h : manifestInv m) : manifestInv (m.AddGlobalImportPath p) := by
  unfold Manifest.AddGlobalImportPath
  split
  · exact h
  · exact h

/-- A successful `Append` preserves the aggregate invariant. -/
theorem append_inv (env : Env) (fs : FS) (m : Manifest) (path : String) (d : Bool)
    (m2 : Manifest) (h : manifestInv m)
    (happ : Manifest.Append env fs m path d = Except.ok m2) : manifestInv m2 := by
  unfold Manifest.Append at happ
  by_cases hd : d = true
  · rw [if_pos hd] at happ
    cases happ
    exact h
  · rw [if_neg hd] at happ
    cases hl : fsLookup fs path with
    | none =>
      rw [hl] at happ
      cases happ
    | some b =>
      rw [hl] at happ
      simp only at happ
      by_cases hb : pbase path = ModuleSpecFilename
      · rw [if_pos hb] at happ
        cases hspec : env.moduleSpecGlobal b with
        | ok g =>
          rw [hspec] at happ
          simp only at happ
          by_cases hg : g = true
          · rw [if_pos hg] at happ
            cases happ
            exact appendEntry_inv env _ path _ b (addGlobal_inv m (pdir path) h)
          · rw [if_neg hg] at happ
            cases happ
            exact appendEntry_inv env m path _ b h
        | error e =>
          rw [hspec] at happ
          cases happ
      · rw [if_neg hb] at happ
        by_cases hs : m.ShouldAppend path = true
        · rw [if_pos hs] at happ
          cases happ
          exact appendEntry_inv env m path _ b h
        · rw [if_neg hs] at happ
          cases happ
          exact h

/-- The walk loop preserves the aggregate invariant. -/
theorem walkAppend_inv (env : Env) (fs : FS) :
    ∀ (tree : List (String × Bool)) (m m2 : Manifest),
    manifestInv m → walkAppend env fs m tree = Except.ok m2 → manifestInv m2 := by
  intro tree
  induction tree with
  | nil =>
    intro m m2 h hw
    cases hw
    exact h
  | cons e rest ih =>
    intro m m2 h hw
    unfold walkAppend at hw
    cases hA : Manifest.Append env fs m e.1 e.2 with
    | ok mm =>
      rw [hA] at hw
      exact ih mm m2 (append_inv env fs m e.1 e.2 mm h hA) hw
    | error err =>
      rw [hA] at hw
      cases hw

/-- C2: the aggregate invariant `fileCount == |assets| + |modules|` and
`totalSize == Σ size` holds after every successful `Append` (given it held
before) and after every completed `CreateManifest` build. -/
theorem c2_aggregate_invariant :
    (∀ (env : Env) (fs : FS) (m : Manifest) (path : String) (d : Bool) (m2 : Manifest),
      manifestInv m → Manifest.Append env fs m path d = Except.ok m2 → manifestInv m2) ∧
    (∀ (env : Env) (fs : FS) (srcdir : String) (tree : List (String × Bool)) (now : Nat)
       (m : Manifest),
      CreateManifest env fs srcdir tree now = Except.ok m → manifestInv m) := by
  constructor
  · intro env fs m path d m2 h happ
    exact append_inv env fs m path d m2 h happ
  · intro env fs srcdir tree now m hc
    unfold CreateManifest at hc
    cases hw : walkAppend env fs (Manifest.new srcdir) tree with
    | ok mm =>
      rw [hw] at hc
      cases hc
      have hbase : manifestInv (Manifest.new srcdir) := ⟨rfl, rfl⟩
      have hmm := walkAppend_inv env fs tree (Manifest.new srcdir) mm hbase hw
      exact hmm
    | error e =>
      rw [hw] at hc
      cases hc

/-- Witness for C2: the invariant after appending the C1 scenario's `a.txt`
to the fresh manifest. -/
theorem c2_aggregate_invariant_witness : manifestInv c2After :=
  c2_aggregate_invariant.1 testEnv c1FS (Manifest.new c1SrcDir) c1APath false c2After
    ⟨rfl, rfl⟩ (by rfl)

/-- When every entry validates, no entry is queued for fetching. -/
theorem toFetch_all_valid_nil (env : Env) (fs : FS) (destdir : String) :
    ∀ (files : List ManifestFile) (n : Nat),
    (∀ f ∈ files, exceptOk (f.validate env fs destdir) = true) →
    ((withIdx n files).filter (fun p => !(exceptOk (p.2.validate env fs destdir)))) = [] := by
  intro files
  induction files with
  | nil =>
    intro n h
    rfl
  | cons f rest ih =>
    intro n h
    have hf := h f (by simp)
    simp only [withIdx, List.filter_cons, hf, Bool.not_true]
    simp only [Bool.false_eq_true, if_false]
    exact ih (n + 1) (fun g hg => h g (by simp [hg]))

/-- When every entry validates against the current state, the validation
pass succeeds without touching the state. -/
theorem validatePass_all_valid (env : Env) (destdir : String) :
    ∀ (files : List ManifestFile) (n : Nat) (st : SyncState),
    (∀ f ∈ files, exceptOk (f.validate env st.fs destdir) = true) →
    validatePass env destdir st (withIdx n files) = Except.ok st := by
  intro files
  induction files with
  | nil =>
    intro n st h
    rfl
  | cons f rest ih =>
    intro n st h
    have hf := h f (by simp)
    by_cases hskip : (f.skipValidate || st.marked.contains n) = true
    · simp only [withIdx, validatePass, hskip, if_true]
      exact ih (n + 1) st (fun g hg => h g (by simp [hg]))
    · simp only [withIdx, validatePass, hskip, Bool.false_eq_true, if_false]
      cases hv : f.validate env st.fs destdir with
      | ok u =>
        simp only [hv]
        exact ih (n + 1) st (fun g hg => h g (by simp [hg]))
      | error e =>
        rw [hv] at hf
        cases hf

/-- C3: reconciliation is idempotent: when every entry of the manifest
already validates against the destination, `Fetch` makes zero calls to the
retrieval backend (empty log), leaves the destination untouched and
succeeds. -/
theorem c3_fetch_idempotent :
    ∀ (env : Env) (srcFS : FS) (m : Manifest) (srcroot destdir : String) (fs : FS),
    (∀ f ∈ m.Files, exceptOk (f.validate env fs destdir) = true) →
    Manifest.Fetch env srcFS m srcroot destdir fs =
      Except.ok { fs := fs, log := [], marked := [] } := by
  intro env srcFS m srcroot destdir fs h
  unfold Manifest.Fetch
  have hto : computeToFetch env fs destdir (m.Assets ++ m.Modules) = [] := by
    unfold computeToFetch
    exact toFetch_all_valid_nil env fs destdir (m.Assets ++ m.Modules) 0 h
  rw [hto]
  exact validatePass_all_valid env destdir (m.Assets ++ m.Modules) 0
    { fs := fs, log := [], marked := [] } h

/-- Witness for C3: a single-asset manifest whose destination copy is
already valid fetches nothing. -/
theorem c3_fetch_idempotent_witness :
    Manifest.Fetch testEnv [] c2After c1SrcDir c3DestDir c3DestFS =
      Except.ok { fs := c3DestFS, log := [], marked := [] } :=
  c3_fetch_idempotent testEnv [] c2After c1SrcDir c3DestDir c3DestFS (by decide)

/-- Characterization of a successful bundle loop: the produced archive
entries are exactly the kept (non-archive, non-autogenerated) entries, in
order, under their manifest-relative names and with their on-disk bytes. -/
theorem bundleFiles_ok (env : Env) (fs : FS) (m : Manifest) :
    ∀ (files : List ManifestFile) (out : List (String × Bytes)),
    bundleFiles env fs m files = Except.ok out →
    out.map Prod.fst = (files.filter (fun f => bundleKeep m f)).map (fun f => f.Name) ∧
    ∀ p ∈ out, fsLookup fs (pjoin m.rootDir p.1) = some p.2 := by
  intro files
  induction files with
  | nil =>
    intro out h
    cases h
    exact ⟨rfl, by intro p hp; simp at hp⟩
  | cons f rest ih =>
    intro out h
    by_cases hA : f.Archive = true
    · have hkeep : bundleKeep m f = false := by simp [bundleKeep, hA]
      rw [show bundleFiles env fs m (f :: rest) = bundleFiles env fs m rest from by
        simp [bundleFiles, hA]] at h
      obtain ⟨h1, h2⟩ := ih out h
      refine ⟨?_, h2⟩
      simp only [List.filter_cons, hkeep, Bool.false_eq_true, if_false]
      exact h1
    · by_cases hAuto : m.isAutogenerated f = true
      · have hkeep : bundleKeep m f = false := by simp [bundleKeep, hAuto]
        rw [show bundleFiles env fs m (f :: rest) = bundleFiles env fs m rest from by
          simp [bundleFiles, hA, hAuto]] at h
        obtain ⟨h1, h2⟩ := ih out h
        refine ⟨?_, h2⟩
        simp only [List.filter_cons, hkeep, Bool.false_eq_true, if_false]
        exact h1
      · have hkeep : bundleKeep m f = true := by simp [bundleKeep, hA, hAuto]
        cases hv : f.validate env fs m.rootDir with
        | error e =>
          rw [show bundleFiles env fs m (f :: rest)
              = Except.error (errBundleInvalid f.Name e) from by
            simp [bundleFiles, hA, hAuto, hv]] at h
          cases h
        | ok u =>
          obtain ⟨b, hb⟩ := validate_ok_lookup env fs m.rootDir f u hv
          cases hrec : bundleFiles env fs m rest with
          | error e =>
            rw [show bundleFiles env fs m (f :: rest) = Except.error e from by
              simp [bundleFiles, hA, hAuto, hv, hb, hrec]] at h
            cases h
          | ok out2 =>
            rw [show bundleFiles env fs m (f :: rest) = Except.ok ((f.Name, b) :: out2) from by
              simp [bundleFiles, hA, hAuto, hv, hb, hrec]] at h
            cases h
            obtain ⟨h1, h2⟩ := ih out2 hrec
            constructor
            · simp only [List.filter_cons, hkeep, if_true, List.map_cons, h1]
            · intro p hp
              rcases List.mem_cons.mp hp with hpe | hpr
              · subst hpe
                exact hb
              · exact h2 p hpr

/-- C7: a successful bundle contains exactly the entries that are neither
archives nor autogenerated `X.qml` derivatives of a tracked module `X.yaml`,
each under its manifest-relative name with its on-disk content. -/
theorem c7_bundle_exclusions :
    ∀ (env : Env) (fs : FS) (m : Manifest) (cr : Except String Unit)
      (out : List (String × Bytes)),
    Manifest.Bundle env fs m cr = Except.ok out →
    out.map Prod.fst = (m.Files.filter (fun f => bundleKeep m f)).map (fun f => f.Name) ∧
    ∀ p ∈ out, fsLookup fs (pjoin m.rootDir p.1) = some p.2 := by
  intro env fs m cr out h
  cases cr with
  | error e =>
    rw [show Manifest.Bundle env fs m (Except.error e) = Except.error e from rfl] at h
    cases h
  | ok u =>
    rw [show Manifest.Bundle env fs m (Except.ok u) = bundleFiles env fs m m.Files from rfl] at h
    exact bundleFiles_ok env fs m m.Files out h

/-- Witness for C7: bundling a manifest holding an archive entry, the
`widget.qml`/`widget.yaml` pair and a plain asset keeps exactly the plain
asset and the module. -/
theorem c7_bundle_exclusions_witness :
    c7Out.map Prod.fst = (c7M.Files.filter (fun f => bundleKeep c7M f)).map (fun f => f.Name) :=
  (c7_bundle_exclusions testEnv c7FS c7M (Except.ok ()) c7Out (by rfl)).1

/-- C8: when the first kept entry that fails re-validation against the
manifest root is `f0` (every kept entry before it validates), `Bundle`
aborts with an error naming `f0`. -/
theorem c8_bundle_invalid_error :
    ∀ (env : Env) (fs : FS) (m : Manifest) (pre post : List ManifestFile)
      (f0 : ManifestFile) (e : String),
    m.Files = pre ++ f0 :: post →
    (∀ f ∈ pre, bundleKeep m f = false ∨ exceptOk (f.validate env fs m.rootDir) = true) →
    bundleKeep m f0 = true →
    f0.validate env fs m.rootDir = Except.error e →
    Manifest.Bundle env fs m (Except.ok ()) = Except.error (errBundleInvalid f0.Name e) := by
  intro env fs m pre post f0 e hfiles hpre hkeep hval
  have hkeep2 := hkeep
  simp only [bundleKeep, Bool.and_eq_true, Bool.not_eq_true'] at hkeep2
  obtain ⟨hA, hAuto⟩ := hkeep2
  rw [show Manifest.Bundle env fs m (Except.ok ()) = bundleFiles env fs m m.Files from rfl, hfiles]
  clear hfiles hkeep
  revert hpre
  induction pre with
  | nil =>
    intro _
    simp [bundleFiles, hA, hAuto, hval]
  | cons g pre' ih =>
    intro hpre
    have hg := hpre g (by simp)
    have hpre' : ∀ f ∈ pre', bundleKeep m f = false ∨ exceptOk (f.validate env fs m.rootDir) = true :=
      fun f hf => hpre f (by simp [hf])
    by_cases hgA : g.Archive = true
    · rw [show bundleFiles env fs m ((g :: pre') ++ f0 :: post)
          = bundleFiles env fs m (pre' ++ f0 :: post) from by simp [bundleFiles, hgA]]
      exact ih hpre'
    · by_cases hgAuto : m.isAutogenerated g = true
      · rw [show bundleFiles env fs m ((g :: pre') ++ f0 :: post)
            = bundleFiles env fs m (pre' ++ f0 :: post) from by simp [bundleFiles, hgA, hgAuto]]
        exact ih hpre'
      · have hgv : exceptOk (g.validate env fs m.rootDir) = true := by
          rcases hg with hg | hg
          · exfalso
            simp [bundleKeep, hgA, hgAuto] at hg
          · exact hg
        cases hv : g.validate env fs m.rootDir with
        | error e2 =>
          rw [hv] at hgv
          simp [exceptOk] at hgv
        | ok u =>
          obtain ⟨b, hb⟩ := validate_ok_lookup env fs m.rootDir g u hv
          rw [show bundleFiles env fs m ((g :: pre') ++ f0 :: post)
              = (match bundleFiles env fs m (pre' ++ f0 :: post) with
                 | Except.ok out2 => Except.ok ((g.Name, b) :: out2)
                 | Except.error e3 => Except.error e3) from by
            simp [bundleFiles, hgA, hgAuto, hv, hb]]
          rw [ih hpre']

/-- Witness for C8: a single-entry manifest whose on-disk bytes do not hash
to the recorded value makes `Bundle` fail, naming the file. -/
theorem c8_bundle_invalid_error_witness :
    Manifest.Bundle testEnv c8FS c8M (Except.ok ()) =
      Except.error (errBundleInvalid c8BadName errInvalidLocal) :=
  c8_bundle_invalid_error testEnv c8FS c8M [] [] c8Bad errInvalidLocal rfl (by simp) rfl rfl

/-- C6: in the fetch loop, an archive entry whose retrieval succeeded is
expanded into the destination immediately after being written and the entry
is marked `skipValidate` (so the validation pass skips it); extraction
failure aborts the whole reconciliation with an error; and a fetch-phase
error is the result of the whole `Fetch` call. -/
theorem c6_archive_extract_skip :
    (∀ (env : Env) (srcFS : FS) (srcroot destdir : String) (st : SyncState)
       (i : Nat) (f : ManifestFile) (rest : List (Nat × ManifestFile)) (b : Bytes) (fs3 : FS),
      f.Archive = true →
      fsLookup srcFS (pjoin srcroot f.Name) = some b →
      extract env (fsWrite st.fs (pjoin destdir f.Name) b) (pjoin destdir f.Name) destdir = some fs3 →
      fetchPhase env srcFS srcroot destdir st ((i, f) :: rest) =
        fetchPhase env srcFS srcroot destdir
          { fs := fs3, log := st.log ++ [f.Name], marked := st.marked ++ [i] } rest) ∧
    (∀ (env : Env) (srcFS : FS) (srcroot destdir : String) (st : SyncState)
       (i : Nat) (f : ManifestFile) (rest : List (Nat × ManifestFile)) (b : Bytes),
      f.Archive = true →
      fsLookup srcFS (pjoin srcroot f.Name) = some b →
      extract env (fsWrite st.fs (pjoin destdir f.Name) b) (pjoin destdir f.Name) destdir = none →
      fetchPhase env srcFS srcroot destdir st ((i, f) :: rest) =
        Except.error (errExtract f.Name,
          { fs := fsWrite st.fs (pjoin destdir f.Name) b,
            log := st.log ++ [f.Name], marked := st.marked })) ∧
    (∀ (env : Env) (destdir : String) (st : SyncState) (i : Nat) (f : ManifestFile)
       (rest : List (Nat × ManifestFile)),
      st.marked.contains i = true →
      validatePass env destdir st ((i, f) :: rest) = validatePass env destdir st rest) ∧
    (∀ (env : Env) (srcFS : FS) (m : Manifest) (srcroot destdir : String) (fs : FS)
       (err : String × SyncState),
      fetchPhase env srcFS srcroot destdir { fs := fs, log := [], marked := [] }
        (computeToFetch env fs destdir (m.Assets ++ m.Modules)) = Except.error err →
      Manifest.Fetch env srcFS m srcroot destdir fs = Except.error err) := by
  refine ⟨?_, ?_, ?_, ?_⟩
  · intro env srcFS srcroot destdir st i f rest b fs3 hA hsrc hex
    simp [fetchPhase, hsrc, hA, hex]
  · intro env srcFS srcroot destdir st i f rest b hA hsrc hex
    simp [fetchPhase, hsrc, hA, hex]
  · intro env destdir st i f rest hmark
    simp only [validatePass]
    rw [hmark]
    simp
  · intro env srcFS m srcroot destdir fs err h
    unfold Manifest.Fetch
    rw [h]

/-- Witness for C6 (first conjunct): fetching the archive `pkg.zip`
immediately extracts it into the destination and marks its index. -/
theorem c6_archive_extract_skip_witness :
    fetchPhase testEnv c6SrcFS c6SrcRoot c6DestDir c6St0 [(0, c4ZipEntry)] =
      fetchPhase testEnv c6SrcFS c6SrcRoot c6DestDir
        { fs := c6Fs3, log := [c4ZipName], marked := [0] } [] :=
  c6_archive_extract_skip.1 testEnv c6SrcFS c6SrcRoot c6DestDir c6St0 0 c4ZipEntry [] [9] c6Fs3
    rfl rfl rfl

/-- A skipped entry (transient flag set before the call, or marked during
it) is passed over by the validation pass. -/
theorem validatePass_skip_step (env : Env) (destdir : String) (st : SyncState)
    (i : Nat) (f : ManifestFile) (rest : List (Nat × ManifestFile))
    (hc : (f.skipValidate || st.marked.contains i) = true) :
    validatePass env destdir st ((i, f) :: rest) = validatePass env destdir st rest := by
  simp only [validatePass]
  rw [hc]
  simp

/-- A non-skipped entry that validates lets the validation pass continue
with the state unchanged. -/
theorem validatePass_ok_step (env : Env) (destdir : String) (st : SyncState)
    (i : Nat) (f : ManifestFile) (rest : List (Nat × ManifestFile)) (u : Unit)
    (hc : (f.skipValidate || st.marked.contains i) = false)
    (hv : f.validate env st.fs destdir = Except.ok u) :
    validatePass env destdir st ((i, f) :: rest) = validatePass env destdir st rest := by
  simp only [validatePass]
  rw [hc]
  simp only [Bool.false_eq_true, if_false]
  rw [hv]

/-- A non-skipped entry that fails validation aborts the pass, removing its
destination file. -/
theorem validatePass_err_step (env : Env) (destdir : String) (st : SyncState)
    (i : Nat) (f : ManifestFile) (rest : List (Nat × ManifestFile)) (e : String)
    (hc : (f.skipValidate || st.marked.contains i) = false)
    (hv : f.validate env st.fs destdir = Except.error e) :
    validatePass env destdir st ((i, f) :: rest) =
      Except.error (errInvalidAt (pjoin destdir f.Name) e,
        { st with fs := fsRemove st.fs (pjoin destdir f.Name) }) := by
  simp only [validatePass]
  rw [hc]
  simp only [Bool.false_eq_true, if_false]
  rw [hv]

/-- Fail-fast of the validation pass: the first non-skipped entry that fails
validation has its local destination file removed and the pass aborts with
an error, regardless of what follows it. -/
theorem validatePass_first_bad (env : Env) (destdir : String) (st : SyncState)
    (i0 : Nat) (f0 : ManifestFile) (e : String)
    (epost : List (Nat × ManifestFile))
    (hskip : f0.skipValidate = false)
    (hmark : st.marked.contains i0 = false)
    (hval : f0.validate env st.fs destdir = Except.error e) :
    ∀ (epre : List (Nat × ManifestFile)),
    (∀ p ∈ epre, p.2.skipValidate = true ∨ st.marked.contains p.1 = true ∨
       exceptOk (p.2.validate env st.fs destdir) = true) →
    validatePass env destdir st (epre ++ (i0, f0) :: epost) =
      Except.error (errInvalidAt (pjoin destdir f0.Name) e,
        { st with fs := fsRemove st.fs (pjoin destdir f0.Name) }) := by
  intro epre
  induction epre with
  | nil =>
    intro _
    rw [List.nil_append]
    exact validatePass_err_step env destdir st i0 f0 epost e (by rw [hskip, hmark]; rfl) hval
  | cons p epre' ih =>
    intro hpre
    obtain ⟨pi, pf⟩ := p
    have hp2 : pf.skipValidate = true ∨ st.marked.contains pi = true ∨
        exceptOk (pf.validate env st.fs destdir) = true := hpre (pi, pf) (by simp)
    have hpre' : ∀ q ∈ epre', q.2.skipValidate = true ∨ st.marked.contains q.1 = true ∨
        exceptOk (q.2.validate env st.fs destdir) = true :=
      fun q hq => hpre q (by simp [hq])
    rw [List.cons_append]
    by_cases hc : (pf.skipValidate || st.marked.contains pi) = true
    · rw [validatePass_skip_step env destdir st pi pf (epre' ++ (i0, f0) :: epost) hc]
      exact ih hpre'
    · have hcf : (pf.skipValidate || st.marked.contains pi) = false := by
        rcases Bool.eq_false_or_eq_true (pf.skipValidate || st.marked.contains pi) with h | h
        · exact absurd h hc
        · exact h
      have hs1 : pf.skipValidate = false := (Bool.or_eq_false_iff.mp hcf).1
      have hs2 : st.marked.contains pi = false := (Bool.or_eq_false_iff.mp hcf).2
      have hpv : exceptOk (pf.validate env st.fs destdir) = true := by
        rcases hp2 with hp | hp | hp
        · rw [hp] at hs1
          simp at hs1
        · rw [hp] at hs2
          simp at hs2
        · exact hp
      cases hv : pf.validate env st.fs destdir with
      | error e2 =>
        rw [hv] at hpv
        simp [exceptOk] at hpv
      | ok u =>
        rw [validatePass_ok_step env destdir st pi pf (epre' ++ (i0, f0) :: epost) u hcf hv]
        exact ih hpre'

/-- C5: if the fetch phase succeeds and some non-skipped entry still fails
validation (the decomposition names the first such entry `f0`: everything
before it is skipped or valid), then `Fetch` removes `f0`'s destination file
and returns an error for it. -/
theorem c5_postfetch_validation_failfast :
    ∀ (env : Env) (srcFS : FS) (srcroot destdir : String) (fs : FS) (m : Manifest)
      (st1 : SyncState) (epre epost : List (Nat × ManifestFile)) (i0 : Nat)
      (f0 : ManifestFile) (e : String),
    fetchPhase env srcFS srcroot destdir { fs := fs, log := [], marked := [] }
      (computeToFetch env fs destdir (m.Assets ++ m.Modules)) = Except.ok st1 →
    withIdx 0 (m.Assets ++ m.Modules) = epre ++ (i0, f0) :: epost →
    (∀ p ∈ epre, p.2.skipValidate = true ∨ st1.marked.contains p.1 = true ∨
       exceptOk (p.2.validate env st1.fs destdir) = true) →
    f0.skipValidate = false →
    st1.marked.contains i0 = false →
    f0.validate env st1.fs destdir = Except.error e →
    Manifest.Fetch env srcFS m srcroot destdir fs =
      Except.error (errInvalidAt (pjoin destdir f0.Name) e,
        { st1 with fs := fsRemove st1.fs (pjoin destdir f0.Name) }) := by
  intro env srcFS srcroot destdir fs m st1 epre epost i0 f0 e hphase hsplit hpre hskip hmark hval
  unfold Manifest.Fetch
  rw [hphase, hsplit]
  exact validatePass_first_bad env destdir st1 i0 f0 e epost hskip hmark hval epre hpre

/-- Witness for C5: the single entry is fetched but the source bytes still
hash wrong, so the second pass removes the local file and errors. -/
theorem c5_postfetch_validation_failfast_witness :
    Manifest.Fetch testEnv c5SrcFS c5M c5SrcRoot c5DestDir [] =
      Except.error (errInvalidAt (pjoin c5DestDir c5Name) errInvalidLocal,
        { c5St1 with fs := fsRemove c5St1.fs (pjoin c5DestDir c5Name) }) :=
  c5_postfetch_validation_failfast testEnv c5SrcFS c5SrcRoot c5DestDir [] c5M c5St1
    [] [] 0 c5Entry errInvalidLocal rfl rfl (by simp) rfl rfl rfl

theorem withIdx_mem {α : Type} :
    ∀ (l : List α) (n : Nat) (p : Nat × α), p ∈ withIdx n l → p.2 ∈ l := by
  intro l
  induction l with
  | nil =>
    intro n p h
    simp [withIdx] at h
  | cons x rest ih =>
    intro n p h
    simp only [withIdx, List.mem_cons] at h
    rcases h with h | h
    · simp [h]
    · exact List.mem_cons.mpr (Or.inr (ih (n + 1) p h))

theorem withIdx_append {α : Type} :
    ∀ (l1 l2 : List α) (n : Nat),
    withIdx n (l1 ++ l2) = withIdx n l1 ++ withIdx (n + l1.length) l2 := by
  intro l1
  induction l1 with
  | nil =>
    intro l2 n
    simp [withIdx]
  | cons x rest ih =>
    intro l2 n
    have harith : n + (x :: rest).length = n + 1 + rest.length := by
      simp only [List.length_cons]
      omega
    rw [harith]
    show (n, x) :: withIdx (n + 1) (rest ++ l2)
        = ((n, x) :: withIdx (n + 1) rest) ++ withIdx (n + 1 + rest.length) l2
    rw [List.cons_append, ih l2 (n + 1)]

/-- When exactly one entry fails local validation, it is the only entry
queued for fetching. -/
theorem toFetch_single (env : Env) (fs : FS) (destdir : String)
    (pre post : List ManifestFile) (f0 : ManifestFile)
    (hpre : ∀ f ∈ pre, exceptOk (f.validate env fs destdir) = true)
    (hpost : ∀ f ∈ post, exceptOk (f.validate env fs destdir) = true)
    (hbad : exceptOk (f0.validate env fs destdir) = false) :
    computeToFetch env fs destdir (pre ++ f0 :: post) = [(pre.length, f0)] := by
  unfold computeToFetch
  rw [withIdx_append, List.filter_append, toFetch_all_valid_nil env fs destdir pre 0 hpre,
    List.nil_append]
  simp only [withIdx, List.filter_cons, hbad, Bool.not_false, if_true]
  rw [toFetch_all_valid_nil env fs destdir post (0 + pre.length + 1) hpost]
  simp

/-- Frame property of the validation pass: when every entry either lives at
the distinguished path or validates against the current state, the pass
(whether it succeeds or aborts) keeps the log and touches at most the
distinguished path. -/
theorem validatePass_frame (env : Env) (destdir dtarget : String) :
    ∀ (entries : List (Nat × ManifestFile)) (st : SyncState),
    (∀ p ∈ entries, pjoin destdir p.2.Name = dtarget ∨
       exceptOk (p.2.validate env st.fs destdir) = true) →
    (fetchState (validatePass env destdir st entries)).log = st.log ∧
    ∀ q, q ≠ dtarget →
      fsLookup (fetchState (validatePass env destdir st entries)).fs q = fsLookup st.fs q := by
  intro entries
  induction entries with
  | nil =>
    intro st _
    exact ⟨rfl, fun q _ => rfl⟩
  | cons p rest ih =>
    intro st hpre
    obtain ⟨pi, pf⟩ := p
    have hp2 : pjoin destdir pf.Name = dtarget ∨
        exceptOk (pf.validate env st.fs destdir) = true := hpre (pi, pf) (by simp)
    have hpre' : ∀ q ∈ rest, pjoin destdir q.2.Name = dtarget ∨
        exceptOk (q.2.validate env st.fs destdir) = true :=
      fun q hq => hpre q (by simp [hq])
    by_cases hc : (pf.skipValidate || st.marked.contains pi) = true
    · rw [validatePass_skip_step env destdir st pi pf rest hc]
      exact ih st hpre'
    · have hcf : (pf.skipValidate || st.marked.contains pi) = false := by
        rcases Bool.eq_false_or_eq_true (pf.skipValidate || st.marked.contains pi) with h | h
        · exact absurd h hc
        · exact h
      cases hv : pf.validate env st.fs destdir with
      | ok u =>
        rw [validatePass_ok_step env destdir st pi pf rest u hcf hv]
        exact ih st hpre'
      | error e2 =>
        have hd : pjoin destdir pf.Name = dtarget := by
          rcases hp2 with hp | hp
          · exact hp
          · rw [hv] at hp
            simp [exceptOk] at hp
        rw [validatePass_err_step env destdir st pi pf rest e2 hcf hv]
        constructor
        · rfl
        · intro q hq
          have : fsLookup (fsRemove st.fs (pjoin destdir pf.Name)) q
              = if q = pjoin destdir pf.Name then none else fsLookup st.fs q :=
            fsLookup_fsRemove st.fs (pjoin destdir pf.Name) q
          rw [hd] at this
          rw [show (fetchState (Except.error (errInvalidAt (pjoin destdir pf.Name) e2,
              { st with fs := fsRemove st.fs (pjoin destdir pf.Name) }))).fs
              = fsRemove st.fs (pjoin destdir pf.Name) from rfl]
          rw [fsLookup_fsRemove, hd]
          simp [hq]

/-- C4 amended: when exactly one entry of the manifest is missing or
mismatched in the destination and that entry is not an archive entry,
`Fetch` calls the retrieval backend exactly once — for that entry — and no
destination path other than that entry's is written or removed, whether the
call succeeds or fails. -/
theorem c4_single_invalid_frame :
    ∀ (env : Env) (srcFS : FS) (srcroot destdir : String) (fs : FS) (m : Manifest)
      (pre post : List ManifestFile) (f0 : ManifestFile),
    m.Files = pre ++ f0 :: post →
    (∀ f ∈ pre, exceptOk (f.validate env fs destdir) = true) →
    (∀ f ∈ post, exceptOk (f.validate env fs destdir) = true) →
    exceptOk (f0.validate env fs destdir) = false →
    f0.Archive = false →
    (fetchState (Manifest.Fetch env srcFS m srcroot destdir fs)).log = [f0.Name] ∧
    ∀ q, q ≠ pjoin destdir f0.Name →
      fsLookup (fetchState (Manifest.Fetch env srcFS m srcroot destdir fs)).fs q =
        fsLookup fs q := by
  intro env srcFS srcroot destdir fs m pre post f0 hfiles hpre hpost hbad harch
  have hfiles2 : m.Assets ++ m.Modules = pre ++ f0 :: post := hfiles
  unfold Manifest.Fetch
  rw [hfiles2, toFetch_single env fs destdir pre post f0 hpre hpost hbad]
  cases hsrc : fsLookup srcFS (pjoin srcroot f0.Name) with
  | none =>
    have hstep : fetchPhase env srcFS srcroot destdir
        { fs := fs, log := [], marked := [] } [(pre.length, f0)]
        = Except.error (errRetrieve f0.Name, { fs := fs, log := [f0.Name], marked := [] }) := by
      simp [fetchPhase, hsrc]
    rw [hstep]
    exact ⟨rfl, fun q _ => rfl⟩
  | some b =>
    have hstep : fetchPhase env srcFS srcroot destdir
        { fs := fs, log := [], marked := [] } [(pre.length, f0)]
        = Except.ok { fs := fsWrite fs (pjoin destdir f0.Name) b,
                      log := [f0.Name], marked := [] } := by
      simp [fetchPhase, hsrc, harch]
    rw [hstep]
    have hhyp : ∀ p ∈ withIdx 0 (pre ++ f0 :: post),
        pjoin destdir p.2.Name = pjoin destdir f0.Name ∨
        exceptOk (p.2.validate env (fsWrite fs (pjoin destdir f0.Name) b) destdir) = true := by
      intro p hp
      have hmem : p.2 ∈ pre ++ f0 :: post := withIdx_mem (pre ++ f0 :: post) 0 p hp
      have hother : p.2 ∈ pre ∨ p.2 = f0 ∨ p.2 ∈ post := by
        rcases List.mem_append.mp hmem with hg | hg
        · exact Or.inl hg
        · rcases List.mem_cons.mp hg with hg | hg
          · exact Or.inr (Or.inl hg)
          · exact Or.inr (Or.inr hg)
      rcases hother with hg | hg | hg
      · by_cases hdq : pjoin destdir p.2.Name = pjoin destdir f0.Name
        · exact Or.inl hdq
        · refine Or.inr ?_
          have hcongr : fsLookup (fsWrite fs (pjoin destdir f0.Name) b) (pjoin destdir p.2.Name)
              = fsLookup fs (pjoin destdir p.2.Name) := by
            rw [fsLookup_fsWrite]
            simp [hdq]
          rw [validate_congr env _ fs destdir p.2 hcongr]
          exact hpre p.2 hg
      · exact Or.inl (by rw [hg])
      · by_cases hdq : pjoin destdir p.2.Name = pjoin destdir f0.Name
        · exact Or.inl hdq
        · refine Or.inr ?_
          have hcongr : fsLookup (fsWrite fs (pjoin destdir f0.Name) b) (pjoin destdir p.2.Name)
              = fsLookup fs (pjoin destdir p.2.Name) := by
            rw [fsLookup_fsWrite]
            simp [hdq]
          rw [validate_congr env _ fs destdir p.2 hcongr]
          exact hpost p.2 hg
    have hframe := validatePass_frame env destdir (pjoin destdir f0.Name)
      (withIdx 0 (pre ++ f0 :: post))
      { fs := fsWrite fs (pjoin destdir f0.Name) b, log := [f0.Name], marked := [] } hhyp
    constructor
    · exact hframe.1
    · intro q hq
      have h2 := hframe.2 q hq
      have h3 : fsLookup (fsWrite fs (pjoin destdir f0.Name) b) q = fsLookup fs q := by
        rw [fsLookup_fsWrite]
        simp [hq]
      exact h2.trans h3

/-- Witness for the C4 amended theorem: a two-entry manifest with only the
first (non-archive) entry invalid makes exactly one backend call. -/
theorem c4_single_invalid_frame_witness :
    (fetchState (Manifest.Fetch testEnv c4wSrcFS c4wM c4wSrcRoot c4wDestDir c4wDestFS)).log
      = [c4wBadName] :=
  (c4_single_invalid_frame testEnv c4wSrcFS c4wSrcRoot c4wDestDir c4wDestFS c4wM
    [] [c4wGood] c4wBad rfl (by simp) (by decide) (by decide) rfl).1

/-- C4 counterexample: with exactly one invalid entry (`pkg.zip`, an archive
missing from the destination) and the other entry (`b.txt`) valid, `Fetch`
nevertheless rewrites `b.txt`'s destination file, because extracting the
fetched archive writes into the destination tree. -/
theorem c4_archive_counterexample :
    exceptOk (c4ZipEntry.validate testEnv c4DestFS c4DestDir) = false ∧
    exceptOk (c4BEntry.validate testEnv c4DestFS c4DestDir) = true ∧
    c4M.Files = [c4ZipEntry, c4BEntry] ∧
    pjoin c4DestDir c4BName ≠ pjoin c4DestDir c4ZipName ∧
    fsLookup (fetchState (Manifest.Fetch testEnv c4SrcFS c4M c4SrcRoot c4DestDir c4DestFS)).fs
        (pjoin c4DestDir c4BName)
      ≠ fsLookup c4DestFS (pjoin c4DestDir c4BName) := by
  decide
